import Mathlib

/-!
Verification of the lexical-diversity metrics of `pelitk` (`src/pelitk/lex.py`)
against its specification.

The Python module is shallowly embedded below.  External resources (the
pickled token→lemma table `LOOKUP`, the word-list files behind `FILE_MAP`,
and `wordnet.synsets`) are parameters of the embedding, collected in
`Resources`.  Fallible Python code is modelled with `Except PyErr`; Python
floats are modelled by `ℚ` where the code only does field arithmetic and
comparisons, and by `ℝ` where `math.sqrt`/`math.log` appear.
-/

/-- Python exception kinds raised by the code under study. -/
inductive PyErr
  | typeError
  | keyError
  | valueError
  | zeroDivisionError
  | nameError
deriving DecidableEq, Repr

/-- A Python value that can be an element of `custom_list`: the code only
ever compares such elements with strings, so strings and one non-string
representative capture the behaviour. -/
inductive PyVal
  | str : String → PyVal
  | int : Int → PyVal
deriving DecidableEq, Repr

/-- The `custom_list` argument of `adv_guiraud`: absent (`None`), an
iterable of arbitrary values, or a non-iterable object. -/
inductive CustomList
  | none
  | iter : List PyVal → CustomList
  | notIter
deriving DecidableEq, Repr

/-- External resources of `lex.py`: the token→lemma `LOOKUP` table, the
word-list files of `FILE_MAP` (by key), and the `wordnet.synsets`
non-emptiness predicate. -/
structure Resources where
  lookup : String → Option String
  wl : String → Finset String
  synsets : String → Bool

instance {ε α : Type} [DecidableEq ε] [DecidableEq α] :
    DecidableEq (Except ε α) := fun a b =>
  match a, b with
  | .ok x, .ok y =>
      if h : x = y then .isTrue (by rw [h]) else .isFalse (by simp [h])
  | .error x, .error y =>
      if h : x = y then .isTrue (by rw [h]) else .isFalse (by simp [h])
  | .ok _, .error _ => .isFalse (by simp)
  | .error _, .ok _ => .isFalse (by simp)

/-- Keys of `FILE_MAP` in `lex.py`. -/
def FILE_MAP_KEYS : List String := ["NGSL", "PSL3", "ENABLE1", "SUPP"]

/-- Embedding of `spellcheck_filter` from `lex.py`: keep tokens whose lemma
(`LOOKUP.get(t, t)`) has a non-empty `wordnet.synsets`. -/
def spellcheck_filter (R : Resources) (tokens : List String) : List String :=
  tokens.filter (fun t => R.synsets ((R.lookup t).getD t))

/-- Embedding of `ttr` from `lex.py`: `len(set(tokens)) / len(tokens)`; raises
`ZeroDivisionError` on an empty list.  `len(set(tokens))` is the number of
distinct tokens, i.e. `tokens.dedup.length`. -/
def ttr (tokens : List String) : Except PyErr ℚ :=
  if tokens.length = 0 then .error .zeroDivisionError
  else .ok ((tokens.dedup.length : ℚ) / (tokens.length : ℚ))

/-- Pure value of `ttr` (the quotient it returns on non-empty input). -/
def ttrQ (tokens : List String) : ℚ :=
  (tokens.dedup.length : ℚ) / (tokens.length : ℚ)

/-- The loop of `_mtld_pass` in `lex.py`, iterating over the index list
`range(1, len(tokens)+1)` while carrying `current_idx`, `factor_count` and
the last value bound to `this_ttr` (`none` while still unbound). -/
def mtldLoop (tokens : List String) (factor_size : ℚ) :
    List Nat → Nat → ℚ → Option ℚ → Except PyErr (ℚ × Option ℚ)
  | [], _, fc, last => .ok (fc, last)
  | i :: rest, cur, fc, _ =>
    match ttr ((tokens.drop cur).take (i - cur)) with
    | .error e => .error e
    | .ok t =>
      if t < factor_size then mtldLoop tokens factor_size rest i (fc + 1) (some t)
      else mtldLoop tokens factor_size rest cur fc (some t)

/-- Embedding of `_mtld_pass` from `lex.py`.  After the loop, reading `this_ttr` when the
loop never ran raises `NameError`; otherwise the remainder factor is added
when `this_ttr > factor_size`. -/
def mtld_pass (tokens : List String) (factor_size : ℚ) : Except PyErr ℚ :=
  match mtldLoop tokens factor_size (List.range' 1 tokens.length) 0 0 none with
  | .error e => .error e
  | .ok (_, none) => .error .nameError
  | .ok (fc, some t) =>
    .ok (if factor_size < t then fc + (1 - t) / (1 - factor_size) else fc)

/-- Embedding of `mtld` from `lex.py`. -/
def mtld (R : Resources) (tokens : List String) (spellcheck : Bool)
    (factor_size : ℚ) : Except PyErr ℚ :=
  let toks := if spellcheck then spellcheck_filter R tokens else tokens
  match mtld_pass toks factor_size with
  | .error e => .error e
  | .ok f =>
    match mtld_pass toks.reverse factor_size with
    | .error e => .error e
    | .ok b =>
      if f = 0 ∨ b = 0 then .error .valueError
      else .ok (((toks.length : ℚ) / f + (toks.length : ℚ) / b) / 2)

/-- A concrete resource environment (empty word lists, empty lemma table,
no recognized synsets) used to instantiate theorems at concrete inputs. -/
def testRes : Resources where
  lookup := fun _ => Option.none
  wl := fun _ => ∅
  synsets := fun _ => false

/-- Window-structured reformulation of the `_mtld_pass` loop: `rem` is the
part of the input not yet scanned and `win` the current window
(`tokens[current_idx:i-1]`). -/
def passAux (factor_size : ℚ) :
    List String → List String → ℚ → Option ℚ → ℚ × Option ℚ
  | [], _, fc, last => (fc, last)
  | t :: rest, win, fc, _ =>
    let tt := ttrQ (win ++ [t])
    if tt < factor_size then passAux factor_size rest [] (fc + 1) (some tt)
    else passAux factor_size rest (win ++ [t]) fc (some tt)

/-- First element of `ks` (a list of window lengths) whose prefix of `l`
has TTR strictly below `factor_size`. -/
def firstIdx (factor_size : ℚ) (l : List String) : List Nat → Option Nat
  | [] => Option.none
  | k :: ks => if ttrQ (l.take k) < factor_size then some k else firstIdx factor_size l ks

/-- Length of the shortest prefix of `l` whose running TTR drops strictly
below `factor_size` (`none` when the TTR never drops). -/
def firstDrop (factor_size : ℚ) (l : List String) : Option Nat :=
  firstIdx factor_size l (List.range' 1 l.length)

def completedCountF (factor_size : ℚ) : Nat → List String → Nat
  | 0, _ => 0
  | fuel + 1, l =>
    match firstDrop factor_size l with
    | some k => 1 + completedCountF factor_size fuel (l.drop k)
    | none => 0

/-- Number of completed factors of one MTLD scan, in the specification's
window language: each time the running window TTR drops strictly below
`factor_size`, one factor is completed and the next window starts right
after the current token. -/
def completedCount (factor_size : ℚ) (l : List String) : Nat :=
  completedCountF factor_size l.length l

def lastTTRF (factor_size : ℚ) : Nat → List String → Option ℚ
  | 0, _ => Option.none
  | fuel + 1, l =>
    match firstDrop factor_size l with
    | none => if l = [] then Option.none else some (ttrQ l)
    | some k =>
      if l.drop k = [] then some (ttrQ (l.take k))
      else lastTTRF factor_size fuel (l.drop k)

/-- The TTR value last computed by the scan: the final window's TTR when
the scan does not end on a drop, otherwise the TTR that closed the last
factor. -/
def lastScanTTR (factor_size : ℚ) (l : List String) : Option ℚ :=
  lastTTRF factor_size l.length l

def finalWinF (factor_size : ℚ) : Nat → List String → Option (List String)
  | 0, _ => Option.none
  | fuel + 1, l =>
    match firstDrop factor_size l with
    | none => if l = [] then Option.none else some l
    | some k => finalWinF factor_size fuel (l.drop k)

/-- The final (incomplete, non-empty) window left over by the scan, when
the scan does not consume the whole input with completed factors. -/
def finalWin (factor_size : ℚ) (l : List String) : Option (List String) :=
  finalWinF factor_size l.length l

/-- One directional MTLD pass as the specification describes it: completed
factors, plus a remainder factor `(1 - final_window_TTR)/(1 - factor_size)`
whenever the final window's TTR never dropped below `factor_size`. -/
def mtldPassClaimed (factor_size : ℚ) (l : List String) : ℚ :=
  (completedCount factor_size l : ℚ) +
    match finalWin factor_size l with
    | some w => (1 - ttrQ w) / (1 - factor_size)
    | none => 0

/-- One directional MTLD pass in window language as the code computes it:
the remainder factor is added only when the last computed TTR is strictly
greater than `factor_size`. -/
def mtldPassWindows (factor_size : ℚ) (l : List String) : ℚ :=
  (completedCount factor_size l : ℚ) +
    match lastScanTTR factor_size l with
    | some t => if factor_size < t then (1 - t) / (1 - factor_size) else 0
    | none => 0

/-- Candidate form of a token in `adv_guiraud` (lines 107-110 of
`lex.py`): the looked-up lemma when the `lemmas` flag is false, the token
itself when it is true. -/
def cand (R : Resources) (lemmas : Bool) (token : String) : String :=
  if lemmas then token else (R.lookup token).getD token

/-- The common-types resolution of `adv_guiraud` (lines 82-94 of
`lex.py`): a supplied custom list is used as given after an iterability
check (`TypeError` otherwise); else `freq_list` must name a `FILE_MAP`
entry (`KeyError` otherwise); when `supplementary` is true the `SUPP` word
list is unioned in. -/
def commonTypes (R : Resources) (freq_list : String) (custom_list : CustomList)
    (supplementary : Bool) : Except PyErr (Finset PyVal) :=
  match custom_list with
  | .notIter => .error .typeError
  | .iter l =>
    if supplementary then .ok (l.toFinset ∪ (R.wl "SUPP").image PyVal.str)
    else .ok l.toFinset
  | .none =>
    if freq_list ∈ FILE_MAP_KEYS then
      if supplementary then
        .ok ((R.wl freq_list).image PyVal.str ∪ (R.wl "SUPP").image PyVal.str)
      else .ok ((R.wl freq_list).image PyVal.str)
    else .error .keyError

/-- The dictionary used by `adv_guiraud`'s spellcheck: the ENABLE1 word
list plus the single-letter words "i" and "a" (lines 98-100). -/
def agDict (R : Resources) : Finset String :=
  insert "a" (insert "i" (R.wl "ENABLE1"))

/-- The token loop of `adv_guiraud` (lines 105-116), accumulating the
`advanced` set. -/
def agLoop (R : Resources) (common : Finset PyVal) (dict : Finset String)
    (spellcheck lemmas : Bool) : List String → Finset String → Finset String
  | [], advanced => advanced
  | token :: rest, advanced =>
    let lem := cand R lemmas token
    let advanced' :=
      if PyVal.str lem ∉ common then
        if spellcheck then
          (if lem ∈ dict then insert lem advanced else advanced)
        else insert lem advanced
      else advanced
    agLoop R common dict spellcheck lemmas rest advanced'

/-- Embedding of `adv_guiraud` from `lex.py`. -/
noncomputable def adv_guiraud (R : Resources) (tokens : List String)
    (freq_list : String) (custom_list : CustomList)
    (spellcheck supplementary lemmas : Bool) : Except PyErr ℝ :=
  match commonTypes R freq_list custom_list supplementary with
  | .error e => .error e
  | .ok common =>
    if tokens.length = 0 then .ok 0
    else .ok (((agLoop R common (agDict R) spellcheck lemmas tokens ∅).card : ℝ)
      / Real.sqrt (tokens.length : ℝ))

/-- Admission condition of a candidate into the advanced-type set: not a
common type, and (under spellcheck) present in the dictionary. -/
def agAdmit (common : Finset PyVal) (dict : Finset String) (spellcheck : Bool)
    (lem : String) : Prop :=
  PyVal.str lem ∉ common ∧ (spellcheck = true → lem ∈ dict)

instance (common : Finset PyVal) (dict : Finset String) (sc : Bool) :
    DecidablePred (agAdmit common dict sc) := fun lem => by
  unfold agAdmit
  infer_instance

/-- Oracles for the parts of `vocd` backed by randomness and scipy:
`sample trial j pool n` stands for `random.sample(tokens, n)` in trial
`trial`, subsample `j`; `estimateD` stands for `_estimate_d` (the
`curve_fit` call), which may fail to converge. -/
structure VocdOracles where
  sample : Nat → Nat → List String → Nat → List String
  estimateD : List Nat → List ℚ → Except PyErr ℝ

/-- Inner subsample loop of `vocd`: sum of the TTRs of `num_subsamples`
drawn samples of size `n`. -/
def vocdSubsampleSum (osc : VocdOracles) (toks : List String)
    (trial n num_subsamples : Nat) : Except PyErr ℚ :=
  (List.range num_subsamples).foldlM (fun tot j => do
    let t ← ttr (osc.sample trial j toks n)
    pure (tot + t)) (0 : ℚ)

/-- Middle loop of `vocd`: for each sample size from `lo` to `hi`, append
the size and the averaged TTR to the accumulated lists. -/
def vocdTrialLists (osc : VocdOracles) (toks : List String)
    (trial lo hi num_subsamples : Nat) : Except PyErr (List Nat × List ℚ) :=
  (List.range' lo (hi + 1 - lo)).foldlM (fun st n => do
    let total_ttr ← vocdSubsampleSum osc toks trial n num_subsamples
    if num_subsamples = 0 then Except.error .zeroDivisionError
    else pure (st.1 ++ [n], st.2 ++ [total_ttr / (num_subsamples : ℚ)]))
    (([], []) : List Nat × List ℚ)

/-- One trial of `vocd`: collect the `(n, mean TTR)` lists and fit D. -/
noncomputable def vocdTrialD (osc : VocdOracles) (toks : List String)
    (trial lo hi num_subsamples : Nat) : Except PyErr ℝ := do
  let nt ← vocdTrialLists osc toks trial lo hi num_subsamples
  osc.estimateD nt.1 nt.2

/-- Embedding of `vocd` from `lex.py`, with the random sampler and curve-fit
step abstracted as oracles: spellcheck filtering, the population-size guard
(`ValueError`), then the trial loop averaging the per-trial D estimates. -/
noncomputable def vocd (R : Resources) (osc : VocdOracles) (tokens : List String)
    (spellcheck : Bool) (lo hi : Nat) (num_subsamples num_trials : Nat) :
    Except PyErr ℝ :=
  let toks := if spellcheck then spellcheck_filter R tokens else tokens
  if toks.length < hi then .error .valueError
  else do
    let total_d ← (List.range num_trials).foldlM (fun acc trial => do
      let d ← vocdTrialD osc toks trial lo hi num_subsamples
      pure (acc + d)) (0 : ℝ)
    if num_trials = 0 then Except.error .zeroDivisionError
    else pure (total_d / (num_trials : ℝ))

/-- A trivial oracle instance used to instantiate theorems. -/
noncomputable def testOsc : VocdOracles where
  sample := fun _ _ pool n => pool.take n
  estimateD := fun _ _ => .ok 0

/-- Embedding of `maas` from `lex.py`: `a² = log(N) − log(V)/log(N)**2`;
raises `ValueError` (empty input), and with `N = 1` the divisor
`log(N)**2` is zero, raising `ZeroDivisionError`. -/
noncomputable def maas (R : Resources) (tokens : List String) (spellcheck : Bool) :
    Except PyErr ℝ :=
  let toks := if spellcheck then spellcheck_filter R tokens else tokens
  if toks.length = 0 then .error .valueError
  else if toks.length = 1 then .error .zeroDivisionError
  else .ok (Real.log ((toks.length : ℝ))
    - Real.log ((toks.dedup.length : ℝ)) / (Real.log ((toks.length : ℝ)))^2)

theorem ttr_ok (tokens : List String) (h : tokens ≠ []) :
    ttr tokens = .ok (ttrQ tokens) := by
  simp [ttr, ttrQ, List.length_eq_zero, h]

theorem mtldLoop_eq_passAux (tokens : List String) (fs : ℚ) :
    ∀ (d cur w : Nat) (fc : ℚ) (last : Option ℚ),
      cur + w + d = tokens.length →
      mtldLoop tokens fs (List.range' (cur + w + 1) d) cur fc last
        = .ok (passAux fs (tokens.drop (cur + w)) ((tokens.drop cur).take w) fc last) := by
  intro d
  induction d with
  | zero =>
    intro cur w fc last h
    rw [List.drop_eq_nil_of_le (by omega)]
    simp [mtldLoop, passAux]
  | succ d ih =>
    intro cur w fc last h
    have hlt : cur + w < tokens.length := by omega
    have hslice : (tokens.drop cur).take (cur + w + 1 - cur)
        = (tokens.drop cur).take w ++ [tokens[cur + w]] := by
      have h1 : cur + w + 1 - cur = w + 1 := by omega
      rw [h1, List.take_succ, List.getElem?_drop]
      rw [List.getElem?_eq_getElem hlt]
      rfl
    have hdrop : tokens.drop (cur + w) = tokens[cur + w] :: tokens.drop (cur + w + 1) :=
      List.drop_eq_getElem_cons hlt
    rw [List.range'_succ]
    simp only [mtldLoop, hslice]
    rw [ttr_ok _ (by simp)]
    rw [hdrop]
    simp only [passAux]
    by_cases hc : ttrQ ((tokens.drop cur).take w ++ [tokens[cur + w]]) < fs
    · rw [if_pos hc, if_pos hc]
      have := ih (cur + w + 1) 0 (fc + 1)
        (some (ttrQ ((tokens.drop cur).take w ++ [tokens[cur + w]]))) (by omega)
      simpa using this
    · rw [if_neg hc, if_neg hc]
      have := ih cur (w + 1) fc
        (some (ttrQ ((tokens.drop cur).take w ++ [tokens[cur + w]]))) (by omega)
      have harr : cur + (w + 1) + 1 = cur + w + 1 + 1 := by omega
      have htk : (tokens.drop cur).take (w + 1)
          = (tokens.drop cur).take w ++ [tokens[cur + w]] := by
        rw [List.take_succ, List.getElem?_drop, List.getElem?_eq_getElem hlt]
        rfl
      rw [harr, htk] at this
      have hd2 : cur + (w + 1) = cur + w + 1 := by omega
      rw [hd2] at this
      exact this

/-- The `_mtld_pass` loop on the whole input equals the window scan. -/
theorem mtldLoop_spec (tokens : List String) (fs : ℚ) :
    mtldLoop tokens fs (List.range' 1 tokens.length) 0 0 none
      = .ok (passAux fs tokens [] 0 none) := by
  have := mtldLoop_eq_passAux tokens fs tokens.length 0 0 0 none (by omega)
  simpa using this

theorem passAux_snd_isSome (fs : ℚ) :
    ∀ (rem win : List String) (fc : ℚ) (last : Option ℚ), rem ≠ [] →
      (passAux fs rem win fc last).2.isSome := by
  intro rem
  induction rem with
  | nil => intro _ _ _ h; exact absurd rfl h
  | cons t rest ih =>
    intro win fc last _
    simp only [passAux]
    rcases Decidable.em (rest = []) with hr | hr
    · subst hr
      split <;> simp [passAux]
    · split <;> exact ih _ _ _ hr

theorem mtld_pass_nil (fs : ℚ) : mtld_pass [] fs = .error .nameError := by
  simp [mtld_pass, mtldLoop]

theorem mtld_pass_of_ne_nil (tokens : List String) (fs : ℚ) (h : tokens ≠ []) :
    ∃ fc t, passAux fs tokens [] 0 none = (fc, some t) ∧
      mtld_pass tokens fs = .ok (if fs < t then fc + (1 - t) / (1 - fs) else fc) := by
  have hs := passAux_snd_isSome fs tokens [] 0 none h
  obtain ⟨t, ht⟩ := Option.isSome_iff_exists.mp hs
  refine ⟨(passAux fs tokens [] 0 none).1, t, ?_, ?_⟩
  · rw [← ht]
  · unfold mtld_pass
    rw [mtldLoop_spec]
    have : passAux fs tokens [] 0 none = ((passAux fs tokens [] 0 none).1, some t) := by
      rw [← ht]
    rw [this]

theorem firstIdx_mem (fs : ℚ) (l : List String) :
    ∀ (ks : List Nat) (k : Nat), firstIdx fs l ks = some k → k ∈ ks := by
  intro ks
  induction ks with
  | nil => intro k h; simp [firstIdx] at h
  | cons a ks ih =>
    intro k h
    simp only [firstIdx] at h
    split at h
    · simp at h; simp [h]
    · exact List.mem_cons_of_mem _ (ih _ h)

theorem firstIdx_eq_none (fs : ℚ) (l : List String) :
    ∀ (ks : List Nat), (∀ k ∈ ks, ¬ ttrQ (l.take k) < fs) → firstIdx fs l ks = Option.none := by
  intro ks
  induction ks with
  | nil => intro _; rfl
  | cons a ks ih =>
    intro h
    simp only [firstIdx]
    rw [if_neg (h a (List.mem_cons_self a ks))]
    exact ih fun k hk => h k (List.mem_cons_of_mem _ hk)

theorem firstIdx_append_none (fs : ℚ) (l : List String) (ks₁ ks₂ : List Nat)
    (h : firstIdx fs l ks₁ = Option.none) :
    firstIdx fs l (ks₁ ++ ks₂) = firstIdx fs l ks₂ := by
  induction ks₁ with
  | nil => simp
  | cons a ks ih =>
    simp only [firstIdx] at h ⊢
    split at h
    · exact absurd h (by simp)
    · rw [if_neg (by assumption)]
      exact ih h

theorem firstDrop_bounds (fs : ℚ) (l : List String) (k : Nat)
    (h : firstDrop fs l = some k) : 1 ≤ k ∧ k ≤ l.length := by
  have := firstIdx_mem fs l _ k h
  rw [List.mem_range'_1] at this
  omega

theorem firstDrop_nil (fs : ℚ) : firstDrop fs [] = Option.none := rfl

theorem completedCountF_congr (fs : ℚ) :
    ∀ (f₁ : Nat), ∀ (f₂ : Nat) (l : List String), l.length ≤ f₁ → l.length ≤ f₂ →
      completedCountF fs f₁ l = completedCountF fs f₂ l := by
  intro f₁
  induction f₁ with
  | zero =>
    intro f₂ l h1 _
    have hl : l = [] := List.length_eq_zero.mp (by omega)
    subst hl
    cases f₂ <;> simp [completedCountF, firstDrop_nil]
  | succ a ih =>
    intro f₂ l h1 h2
    cases f₂ with
    | zero =>
      have hl : l = [] := List.length_eq_zero.mp (by omega)
      subst hl
      simp [completedCountF, firstDrop_nil]
    | succ b =>
      simp only [completedCountF]
      cases hfd : firstDrop fs l with
      | none => rfl
      | some k =>
        have hb := firstDrop_bounds fs l k hfd
        have hdl : (l.drop k).length = l.length - k := List.length_drop k l
        exact congrArg (fun x => 1 + x) (ih b (l.drop k) (by omega) (by omega))

theorem lastTTRF_congr (fs : ℚ) :
    ∀ (f₁ : Nat), ∀ (f₂ : Nat) (l : List String), l.length ≤ f₁ → l.length ≤ f₂ →
      lastTTRF fs f₁ l = lastTTRF fs f₂ l := by
  intro f₁
  induction f₁ with
  | zero =>
    intro f₂ l h1 _
    have hl : l = [] := List.length_eq_zero.mp (by omega)
    subst hl
    cases f₂ <;> simp [lastTTRF, firstDrop_nil]
  | succ a ih =>
    intro f₂ l h1 h2
    cases f₂ with
    | zero =>
      have hl : l = [] := List.length_eq_zero.mp (by omega)
      subst hl
      simp [lastTTRF, firstDrop_nil]
    | succ b =>
      simp only [lastTTRF]
      cases hfd : firstDrop fs l with
      | none => rfl
      | some k =>
        have hb := firstDrop_bounds fs l k hfd
        have hdl : (l.drop k).length = l.length - k := List.length_drop k l
        show (if l.drop k = [] then some (ttrQ (l.take k)) else lastTTRF fs a (l.drop k))
          = (if l.drop k = [] then some (ttrQ (l.take k)) else lastTTRF fs b (l.drop k))
        rw [ih b (l.drop k) (by omega) (by omega)]

theorem finalWinF_congr (fs : ℚ) :
    ∀ (f₁ : Nat), ∀ (f₂ : Nat) (l : List String), l.length ≤ f₁ → l.length ≤ f₂ →
      finalWinF fs f₁ l = finalWinF fs f₂ l := by
  intro f₁
  induction f₁ with
  | zero =>
    intro f₂ l h1 _
    have hl : l = [] := List.length_eq_zero.mp (by omega)
    subst hl
    cases f₂ <;> simp [finalWinF, firstDrop_nil]
  | succ a ih =>
    intro f₂ l h1 h2
    cases f₂ with
    | zero =>
      have hl : l = [] := List.length_eq_zero.mp (by omega)
      subst hl
      simp [finalWinF, firstDrop_nil]
    | succ b =>
      simp only [finalWinF]
      cases hfd : firstDrop fs l with
      | none => rfl
      | some k =>
        have hb := firstDrop_bounds fs l k hfd
        have hdl : (l.drop k).length = l.length - k := List.length_drop k l
        exact ih b (l.drop k) (by omega) (by omega)

theorem completedCount_of_none (fs : ℚ) (l : List String)
    (h : firstDrop fs l = Option.none) : completedCount fs l = 0 := by
  unfold completedCount
  cases hn : l.length with
  | zero => rfl
  | succ m => simp [completedCountF, h]

theorem completedCount_of_some (fs : ℚ) (l : List String) (k : Nat)
    (h : firstDrop fs l = some k) :
    completedCount fs l = 1 + completedCount fs (l.drop k) := by
  have hb := firstDrop_bounds fs l k h
  unfold completedCount
  cases hn : l.length with
  | zero =>
    exfalso
    have : l = [] := List.length_eq_zero.mp hn
    subst this
    rw [firstDrop_nil] at h
    exact Option.noConfusion h
  | succ m =>
    simp only [completedCountF, h]
    have hdl : (l.drop k).length = l.length - k := List.length_drop k l
    rw [completedCountF_congr fs m (l.drop k).length (l.drop k) (by omega) (by omega)]

theorem lastScanTTR_of_none (fs : ℚ) (l : List String)
    (h : firstDrop fs l = Option.none) :
    lastScanTTR fs l = if l = [] then Option.none else some (ttrQ l) := by
  unfold lastScanTTR
  cases hn : l.length with
  | zero =>
    have : l = [] := List.length_eq_zero.mp hn
    subst this
    simp [lastTTRF]
  | succ m =>
    have : l ≠ [] := by
      intro he; subst he; simp at hn
    simp [lastTTRF, h, this]

theorem lastScanTTR_of_some (fs : ℚ) (l : List String) (k : Nat)
    (h : firstDrop fs l = some k) :
    lastScanTTR fs l =
      if l.drop k = [] then some (ttrQ (l.take k)) else lastScanTTR fs (l.drop k) := by
  have hb := firstDrop_bounds fs l k h
  unfold lastScanTTR
  cases hn : l.length with
  | zero =>
    exfalso
    have : l = [] := List.length_eq_zero.mp hn
    subst this
    rw [firstDrop_nil] at h
    exact Option.noConfusion h
  | succ m =>
    simp only [lastTTRF, h]
    cases hd : l.drop k with
    | nil => rfl
    | cons x xs =>
      have hne : l.drop k ≠ [] := by rw [hd]; exact List.cons_ne_nil x xs
      rw [← hd]
      have hdl : (l.drop k).length = l.length - k := List.length_drop k l
      rw [if_neg hne, if_neg hne]
      exact lastTTRF_congr fs m (l.drop k).length (l.drop k) (by omega) (by omega)

theorem finalWin_of_none (fs : ℚ) (l : List String)
    (h : firstDrop fs l = Option.none) :
    finalWin fs l = if l = [] then Option.none else some l := by
  unfold finalWin
  cases hn : l.length with
  | zero =>
    have : l = [] := List.length_eq_zero.mp hn
    subst this
    simp [finalWinF]
  | succ m =>
    have : l ≠ [] := by
      intro he; subst he; simp at hn
    simp [finalWinF, h, this]

theorem finalWin_of_some (fs : ℚ) (l : List String) (k : Nat)
    (h : firstDrop fs l = some k) :
    finalWin fs l = finalWin fs (l.drop k) := by
  have hb := firstDrop_bounds fs l k h
  unfold finalWin
  cases hn : l.length with
  | zero =>
    exfalso
    have : l = [] := List.length_eq_zero.mp hn
    subst this
    rw [firstDrop_nil] at h
    exact Option.noConfusion h
  | succ m =>
    simp only [finalWinF, h]
    have hdl : (l.drop k).length = l.length - k := List.length_drop k l
    rw [finalWinF_congr fs m (l.drop k).length (l.drop k) (by omega) (by omega)]

theorem lastScanTTR_isSome (fs : ℚ) :
    ∀ (n : Nat) (l : List String), l.length = n → l ≠ [] →
      (lastScanTTR fs l).isSome := by
  intro n
  induction n using Nat.strong_induction_on with
  | _ n ih =>
    intro l hn hne
    cases hfd : firstDrop fs l with
    | none =>
      rw [lastScanTTR_of_none fs l hfd, if_neg hne]
      rfl
    | some k =>
      have hb := firstDrop_bounds fs l k hfd
      rw [lastScanTTR_of_some fs l k hfd]
      cases hd : l.drop k with
      | nil => rfl
      | cons x xs =>
        rw [← hd]
        rw [if_neg (by rw [hd]; exact List.cons_ne_nil x xs)]
        have hdl : (l.drop k).length = l.length - k := List.length_drop k l
        have hlen : l.length ≠ 0 := by
          intro he
          exact hne (List.length_eq_zero.mp he)
        exact ih (l.drop k).length (by omega) (l.drop k) rfl (by rw [hd]; exact List.cons_ne_nil x xs)

theorem take_append_len_succ (win : List String) (t : String) (rest : List String) :
    (win ++ t :: rest).take (win.length + 1) = win ++ [t] := by
  rw [List.take_append]
  rfl

theorem drop_append_len_succ (win : List String) (t : String) (rest : List String) :
    (win ++ t :: rest).drop (win.length + 1) = rest := by
  rw [List.drop_append]
  rfl

theorem firstDrop_no_drop (fs : ℚ) (l : List String)
    (h : ∀ j, 1 ≤ j → j ≤ l.length → ¬ ttrQ (l.take j) < fs) :
    firstDrop fs l = Option.none := by
  refine firstIdx_eq_none fs l _ (fun k hk => ?_)
  rw [List.mem_range'_1] at hk
  exact h k hk.1 (by omega)

theorem firstDrop_append_drop (fs : ℚ) (win : List String) (t : String)
    (rest : List String)
    (hwin : ∀ j, 1 ≤ j → j ≤ win.length → ¬ ttrQ (win.take j) < fs)
    (hc : ttrQ (win ++ [t]) < fs) :
    firstDrop fs (win ++ t :: rest) = some (win.length + 1) := by
  unfold firstDrop
  have hlen : (win ++ t :: rest).length = win.length + (rest.length + 1) := by
    simp
  rw [hlen]
  have hr := List.range'_append 1 win.length (rest.length + 1) 1
  have h3 : 1 + 1 * win.length = win.length + 1 := by ring
  rw [h3] at hr
  have hsplit : List.range' 1 (win.length + (rest.length + 1))
      = List.range' 1 win.length ++ List.range' (win.length + 1) (rest.length + 1) := by
    have h2 : win.length + (rest.length + 1) = rest.length + 1 + win.length := by omega
    rw [h2, ← hr]
  rw [hsplit]
  rw [firstIdx_append_none fs _ _ _ (by
    refine firstIdx_eq_none fs _ _ (fun k hk => ?_)
    rw [List.mem_range'_1] at hk
    rw [List.take_append_of_le_length (by omega)]
    exact hwin k hk.1 (by omega))]
  rw [List.range'_succ]
  simp only [firstIdx]
  rw [take_append_len_succ]
  rw [if_pos hc]

theorem passAux_eq_windows (fs : ℚ) :
    ∀ (rem win : List String) (fc : ℚ) (last : Option ℚ),
      (∀ j, 1 ≤ j → j ≤ win.length → ¬ ttrQ (win.take j) < fs) →
      (win ≠ [] → last = some (ttrQ win)) →
      passAux fs rem win fc last
        = (fc + (completedCount fs (win ++ rem) : ℚ),
           match lastScanTTR fs (win ++ rem) with
           | Option.none => last
           | some t => some t) := by
  intro rem
  induction rem with
  | nil =>
    intro win fc last hwin hlast
    simp only [passAux, List.append_nil]
    have hfd : firstDrop fs win = Option.none := firstDrop_no_drop fs win hwin
    rw [completedCount_of_none fs win hfd, lastScanTTR_of_none fs win hfd]
    rcases eq_or_ne win [] with hw | hw
    · subst hw
      simp
    · rw [if_neg hw, hlast hw]
      simp
  | cons t rest ih =>
    intro win fc last hwin hlast
    simp only [passAux]
    by_cases hc : ttrQ (win ++ [t]) < fs
    · rw [if_pos hc]
      rw [ih [] (fc + 1) (some (ttrQ (win ++ [t])))
        (by intro j h1 h2; simp at h2; omega) (by intro h; exact absurd rfl h)]
      have hfd : firstDrop fs (win ++ t :: rest) = some (win.length + 1) :=
        firstDrop_append_drop fs win t rest hwin hc
      rw [completedCount_of_some fs _ _ hfd, lastScanTTR_of_some fs _ _ hfd]
      rw [drop_append_len_succ, take_append_len_succ]
      simp only [List.nil_append]
      rcases eq_or_ne rest [] with hr | hr
      · subst hr
        have : lastScanTTR fs ([] : List String) = Option.none := rfl
        rw [this, if_pos rfl]
        have hcc : completedCount fs ([] : List String) = 0 := rfl
        rw [hcc]
        simp only [Prod.mk.injEq]
        constructor
        · push_cast
          ring
        · trivial
      · obtain ⟨u, hu⟩ := Option.isSome_iff_exists.mp
          (lastScanTTR_isSome fs rest.length rest rfl hr)
        rw [hu, if_neg hr]
        simp only [Prod.mk.injEq]
        constructor
        · push_cast
          ring
        · trivial
    · rw [if_neg hc]
      have hwin' : ∀ j, 1 ≤ j → j ≤ (win ++ [t]).length → ¬ ttrQ ((win ++ [t]).take j) < fs := by
        intro j h1 h2
        simp only [List.length_append, List.length_cons, List.length_nil] at h2
        rcases Nat.lt_or_ge j (win.length + 1) with hj | hj
        · rw [List.take_append_of_le_length (by omega)]
          exact hwin j h1 (by omega)
        · have hj2 : j = win.length + 1 := by omega
          subst hj2
          rw [List.take_append]
          simpa using hc
      rw [ih (win ++ [t]) fc (some (ttrQ (win ++ [t]))) hwin' (fun _ => rfl)]
      have hassoc : (win ++ [t]) ++ rest = win ++ t :: rest := by
        rw [List.append_assoc]
        rfl
      rw [hassoc]
      have hne : win ++ t :: rest ≠ [] := by
        intro he
        have := congrArg List.length he
        simp at this
      obtain ⟨u, hu⟩ := Option.isSome_iff_exists.mp
        (lastScanTTR_isSome fs (win ++ t :: rest).length (win ++ t :: rest) rfl hne)
      rw [hu]

/-- On a non-empty list, `_mtld_pass` computes exactly the window-language
factor count (completed factors plus the strict remainder factor). -/
theorem mtld_pass_eq_windows (tokens : List String) (fs : ℚ) (h : tokens ≠ []) :
    mtld_pass tokens fs = .ok (mtldPassWindows fs tokens) := by
  obtain ⟨fc, t, hpa, hmp⟩ := mtld_pass_of_ne_nil tokens fs h
  have hw := passAux_eq_windows fs tokens [] 0 none
    (by intro j h1 h2; simp at h2; omega) (by intro hh; exact absurd rfl hh)
  simp only [List.nil_append] at hw
  rw [hpa] at hw
  obtain ⟨u, hu⟩ := Option.isSome_iff_exists.mp
    (lastScanTTR_isSome fs tokens.length tokens rfl h)
  rw [hu] at hw
  have h1 : fc = (completedCount fs tokens : ℚ) := by
    have := congrArg Prod.fst hw
    simpa using this
  have h2 : t = u := by
    have := congrArg Prod.snd hw
    simpa using this
  rw [hmp]
  unfold mtldPassWindows
  rw [hu]
  subst h2
  rw [h1]
  show Except.ok (if fs < t then (completedCount fs tokens : ℚ) + (1 - t) / (1 - fs)
      else (completedCount fs tokens : ℚ))
    = Except.ok ((completedCount fs tokens : ℚ) + if fs < t then (1 - t) / (1 - fs) else 0)
  by_cases hcond : fs < t
  · rw [if_pos hcond, if_pos hcond]
  · rw [if_neg hcond, if_neg hcond, add_zero]

theorem passAux_replicate :
    ∀ (m : Nat) (fc : ℚ) (last : Option ℚ),
      passAux (72/100) (List.replicate (2*m) "the") [] fc last
        = (fc + (m : ℚ), if m = 0 then last else some (1/2)) := by
  intro m
  induction m with
  | zero =>
    intro fc last
    simp [passAux]
  | succ m ih =>
    intro fc last
    have h2 : 2*(m+1) = (2*m + 1) + 1 := by ring
    rw [h2, List.replicate_succ, List.replicate_succ]
    have ht1 : ttrQ (([] : List String) ++ ["the"]) = 1 := by
      simp [ttrQ]
    have ht2 : ttrQ ((([] : List String) ++ ["the"]) ++ ["the"]) = 1/2 := by
      simp [ttrQ, List.dedup_cons_of_mem]
    simp only [passAux, ht1, ht2]
    rw [if_neg (by norm_num), if_pos (by norm_num)]
    rw [ih (fc + 1) (some (1/2))]
    simp only [Prod.mk.injEq, ite_self]
    constructor
    · push_cast
      ring
    · rw [if_neg (Nat.succ_ne_zero m)]

theorem mtld_pass_replicate (m : Nat) (hm : 1 ≤ m) :
    mtld_pass (List.replicate (2*m) "the") (72/100) = .ok (m : ℚ) := by
  unfold mtld_pass
  rw [mtldLoop_spec]
  rw [passAux_replicate m 0 none]
  rw [if_neg (by omega)]
  show Except.ok (if (72/100 : ℚ) < 1/2 then 0 + (m : ℚ) + (1 - 1/2) / (1 - 72/100)
      else 0 + (m : ℚ)) = Except.ok (m : ℚ)
  rw [if_neg (by norm_num), zero_add]

theorem mtld_replicate_the :
    mtld testRes (List.replicate 100 "the") false (72/100) = .ok 2 := by
  have hf := mtld_pass_replicate 50 (by norm_num)
  have h100 : (100 : Nat) = 2*50 := by norm_num
  simp only [mtld, Bool.false_eq_true, if_false]
  rw [h100, List.reverse_replicate]
  rw [hf]
  show (if (50 : ℚ) = 0 ∨ (50 : ℚ) = 0 then Except.error PyErr.valueError
      else Except.ok ((((List.replicate (2*50) "the").length : ℚ) / 50
        + ((List.replicate (2*50) "the").length : ℚ) / 50) / 2)) = Except.ok 2
  rw [if_neg (by norm_num)]
  rw [List.length_replicate]
  norm_num

/-- C7: for every non-empty token list, `ttr` returns the number of unique
tokens divided by the number of tokens (in particular 4/7 on the
seven-token example), and on the empty list it signals an error
(`ZeroDivisionError`) rather than returning a number. -/
theorem ttr_contract (tokens : List String) :
    (tokens ≠ [] → ttr tokens = .ok ((tokens.dedup.length : ℚ) / (tokens.length : ℚ)))
    ∧ ttr [] = .error .zeroDivisionError
    ∧ ttr ["the","the","dog","ran","the","cat","ran"] = .ok (4/7) := by
  refine ⟨fun h => ttr_ok tokens h, rfl, ?_⟩
  simp [ttr, List.dedup_cons_of_not_mem, List.dedup_cons_of_mem]

/-- Witness for C7 at a concrete non-empty input. -/
theorem ttr_contract_witness :
    (["x","y","x"] : List String) ≠ [] ∧
    ttr ["x","y","x"] = .ok (((["x","y","x"] : List String).dedup.length : ℚ)
      / (((["x","y","x"] : List String)).length : ℚ)) :=
  ⟨by simp, (ttr_contract ["x","y","x"]).1 (by simp)⟩

/-- C2: whenever the forward pass (on the scanned list) and the backward
pass (on its reversal) both return non-zero factor counts, `mtld` returns
`(|tokens|/forward + |tokens|/backward) / 2`, where `|tokens|` counts the
list `mtld` actually scans (after optional spellcheck filtering). -/
theorem mtld_formula (R : Resources) (tokens : List String) (sc : Bool) (fs f b : ℚ)
    (hf : mtld_pass (if sc then spellcheck_filter R tokens else tokens) fs = .ok f)
    (hb : mtld_pass (if sc then spellcheck_filter R tokens else tokens).reverse fs = .ok b)
    (hf0 : f ≠ 0) (hb0 : b ≠ 0) :
    mtld R tokens sc fs =
      .ok ((((if sc then spellcheck_filter R tokens else tokens).length : ℚ) / f
          + ((if sc then spellcheck_filter R tokens else tokens).length : ℚ) / b) / 2) := by
  simp only [mtld, hf, hb]
  rw [if_neg (by rintro (h | h)
                 · exact hf0 h
                 · exact hb0 h)]

/-- Witness for C2 at a concrete input with two factors in each direction. -/
theorem mtld_formula_witness :
    mtld testRes ["a","a","b","b"] false (72/100) = .ok 2 := by
  have hf : mtld_pass ["a","a","b","b"] (72/100) = .ok 2 := by
    simp [mtld_pass, mtldLoop, ttr, List.range',
      List.dedup_cons_of_not_mem, List.dedup_cons_of_mem]
    norm_num
  have hb : mtld_pass (["a","a","b","b"] : List String).reverse (72/100) = .ok 2 := by
    show mtld_pass ["b","b","a","a"] (72/100) = .ok 2
    simp [mtld_pass, mtldLoop, ttr, List.range',
      List.dedup_cons_of_not_mem, List.dedup_cons_of_mem]
    norm_num
  have h := mtld_formula testRes ["a","a","b","b"] false (72/100) 2 2 hf hb
    (by norm_num) (by norm_num)
  rw [h]
  norm_num

/-- C3 is false as stated: on `["a","b","c","a"]` (factor_size 0.72) both
directional scans complete zero factors — the running TTR never drops
strictly below 0.72 — yet `mtld` returns 112/25 instead of signalling an
error, because the partial factor 25/28 makes the zero check pass. -/
theorem mtld_zero_completed_no_error :
    completedCount (72/100) ["a","b","c","a"] = 0 ∧
    completedCount (72/100) (["a","b","c","a"] : List String).reverse = 0 ∧
    mtld testRes ["a","b","c","a"] false (72/100) = .ok (112/25) := by
  refine ⟨?_, ?_, ?_⟩
  · simp [completedCount, completedCountF, firstDrop, firstIdx, ttrQ, List.range',
      List.dedup_cons_of_not_mem, List.dedup_cons_of_mem]
    norm_num
  · show completedCount (72/100) ["a","c","b","a"] = 0
    simp [completedCount, completedCountF, firstDrop, firstIdx, ttrQ, List.range',
      List.dedup_cons_of_not_mem, List.dedup_cons_of_mem]
    norm_num
  · simp [mtld, mtld_pass, mtldLoop, ttr, List.range',
      List.dedup_cons_of_not_mem, List.dedup_cons_of_mem]
    norm_num

/-- C3 (amended): `mtld` signals an error exactly when either direction's
total factor count — completed factors plus any partial factor, the value
the pass returns — is zero. -/
theorem mtld_zero_factor_error (R : Resources) (tokens : List String) (sc : Bool)
    (fs f b : ℚ)
    (hf : mtld_pass (if sc then spellcheck_filter R tokens else tokens) fs = .ok f)
    (hb : mtld_pass (if sc then spellcheck_filter R tokens else tokens).reverse fs = .ok b)
    (h0 : f = 0 ∨ b = 0) :
    mtld R tokens sc fs = .error .valueError := by
  simp only [mtld, hf, hb]
  rw [if_pos h0]

/-- Witness for the amended C3: two distinct tokens give factor count 0. -/
theorem mtld_zero_factor_error_witness :
    mtld testRes ["a","b"] false (72/100) = .error .valueError := by
  have hf : mtld_pass ["a","b"] (72/100) = .ok 0 := by
    simp [mtld_pass, mtldLoop, ttr, List.range',
      List.dedup_cons_of_not_mem, List.dedup_cons_of_mem]
    norm_num
  have hb : mtld_pass (["a","b"] : List String).reverse (72/100) = .ok 0 := by
    show mtld_pass ["b","a"] (72/100) = .ok 0
    simp [mtld_pass, mtldLoop, ttr, List.range',
      List.dedup_cons_of_not_mem, List.dedup_cons_of_mem]
    norm_num
  exact mtld_zero_factor_error testRes ["a","b"] false (72/100) 0 0 hf hb (Or.inl rfl)

/-- C4 is false as stated: on the single token "the" repeated 100 times
with the default factor_size 0.72, `mtld` does not raise any error (the
window TTR drops to 1/2 on every second repetition). -/
theorem mtld_repeated_no_error :
    ¬ ∃ e, mtld testRes (List.replicate 100 "the") false (72/100) = .error e := by
  rw [mtld_replicate_the]
  rintro ⟨e, he⟩
  exact Except.noConfusion he

/-- C4 (amended): on `["the"] * 100` with factor_size 0.72 `mtld` returns
the finite value 2: each direction completes 50 factors (the running
window TTR drops to 1/2 at every second repeated token). -/
theorem mtld_repeated_value :
    mtld testRes (List.replicate 100 "the") false (72/100) = .ok 2 ∧
    mtld_pass (List.replicate 100 "the") (72/100) = .ok 50 := by
  refine ⟨mtld_replicate_the, ?_⟩
  have h := mtld_pass_replicate 50 (by norm_num)
  have h100 : (100 : Nat) = 2*50 := by norm_num
  rw [h100]
  rw [h]
  norm_num

/-- C5 is false as stated at the threshold boundary: on `["a","a"]` with
factor_size 1/2 the running TTR never drops strictly below 1/2, so the
claimed partial factor is `(1 - 1/2)/(1 - 1/2) = 1`, but the code adds a
partial factor only for TTR strictly above factor_size and returns 0. -/
theorem mtld_pass_boundary_cex :
    mtld_pass ["a","a"] (1/2) = .ok 0 ∧ mtldPassClaimed (1/2) ["a","a"] = 1 := by
  constructor
  · simp [mtld_pass, mtldLoop, ttr, List.range',
      List.dedup_cons_of_not_mem, List.dedup_cons_of_mem]
    norm_num
  · simp [mtldPassClaimed, completedCount, completedCountF, finalWin, finalWinF,
      firstDrop, firstIdx, ttrQ, List.range',
      List.dedup_cons_of_not_mem, List.dedup_cons_of_mem]
    norm_num

/-- C5 (amended): a directional pass over a non-empty list computes one
completed factor at each strict drop of the running window TTR below
factor_size (with cursor reset), and adds the partial factor
`(1 - final_TTR)/(1 - factor_size)` exactly when the last computed window
TTR is strictly greater than factor_size (not when it equals it). -/
theorem mtld_pass_factor_structure (tokens : List String) (fs : ℚ) (h : tokens ≠ []) :
    mtld_pass tokens fs = .ok (mtldPassWindows fs tokens) :=
  mtld_pass_eq_windows tokens fs h

/-- Witness for the amended C5 at a concrete input. -/
theorem mtld_pass_factor_structure_witness :
    (["a","b"] : List String) ≠ [] ∧
    mtld_pass ["a","b"] (72/100) = .ok (mtldPassWindows (72/100) ["a","b"]) :=
  ⟨by simp, mtld_pass_factor_structure ["a","b"] (72/100) (by simp)⟩

/-- C10: `mtld` is invariant under reversal of its input: on any token
list, spellcheck flag and factor size, reversing the input gives the same
result (same error, or same value). -/
theorem mtld_reverse_invariant (R : Resources) (tokens : List String) (sc : Bool)
    (fs : ℚ) : mtld R tokens.reverse sc fs = mtld R tokens sc fs := by
  have hts : (if sc then spellcheck_filter R tokens.reverse else tokens.reverse)
      = (if sc then spellcheck_filter R tokens else tokens).reverse := by
    cases sc
    · simp
    · simp [spellcheck_filter, List.filter_reverse]
  simp only [mtld, hts, List.reverse_reverse]
  rcases eq_or_ne (if sc then spellcheck_filter R tokens else tokens) [] with ht | ht
  · rw [ht]
    simp [mtld_pass_nil]
  · obtain ⟨fc1, t1, hpa1, hmp1⟩ :=
      mtld_pass_of_ne_nil (if sc then spellcheck_filter R tokens else tokens) fs ht
    obtain ⟨fc2, t2, hpa2, hmp2⟩ :=
      mtld_pass_of_ne_nil (if sc then spellcheck_filter R tokens else tokens).reverse fs
        (by simpa using ht)
    simp only [hmp1, hmp2, List.length_reverse]
    by_cases h0 : (if fs < t2 then fc2 + (1 - t2) / (1 - fs) else fc2) = 0
      ∨ (if fs < t1 then fc1 + (1 - t1) / (1 - fs) else fc1) = 0
    · rw [if_pos h0, if_pos (Or.symm h0)]
    · rw [if_neg h0, if_neg (fun hh => h0 (Or.symm hh))]
      rw [add_comm
        (((if sc then spellcheck_filter R tokens else tokens).length : ℚ)
          / (if fs < t2 then fc2 + (1 - t2) / (1 - fs) else fc2))]

theorem agLoop_eq (R : Resources) (common : Finset PyVal) (dict : Finset String)
    (sc lm : Bool) :
    ∀ (ts : List String) (advanced : Finset String),
      agLoop R common dict sc lm ts advanced
        = advanced ∪ ((ts.map (cand R lm)).toFinset.filter (agAdmit common dict sc)) := by
  intro ts
  induction ts with
  | nil =>
    intro advanced
    simp [agLoop]
  | cons t rest ih =>
    intro advanced
    simp only [agLoop]
    rw [ih]
    rw [List.map_cons, List.toFinset_cons, Finset.filter_insert]
    by_cases h1 : PyVal.str (cand R lm t) ∈ common
    · rw [if_neg (not_not_intro h1), if_neg (fun hadm => hadm.1 h1)]
    · rw [if_pos h1]
      cases sc with
      | false =>
        rw [if_neg (by simp)]
        rw [if_pos ⟨h1, fun hh => absurd hh (by simp)⟩]
        rw [Finset.insert_union, Finset.union_insert]
      | true =>
        rw [if_pos rfl]
        by_cases h3 : cand R lm t ∈ dict
        · rw [if_pos h3, if_pos ⟨h1, fun _ => h3⟩]
          rw [Finset.insert_union, Finset.union_insert]
        · rw [if_neg h3, if_neg (fun hadm => h3 (hadm.2 rfl))]

/-- C1: with a valid configuration resolving the common-types set
`common`, `adv_guiraud` returns exactly 0 on the empty token list, and
otherwise |advanced type set| / sqrt(|tokens|), where a token's candidate
form is its looked-up lemma when the `lemmas` flag is false (the token
itself when true), and a candidate outside the common-types set enters the
advanced set iff spellcheck is disabled or the candidate is in the
dictionary (ENABLE1 plus "i" and "a"). -/
theorem adv_guiraud_spec (R : Resources) (tokens : List String) (fl : String)
    (cl : CustomList) (sc supp lm : Bool) (common : Finset PyVal)
    (hok : commonTypes R fl cl supp = .ok common) :
    adv_guiraud R tokens fl cl sc supp lm =
      .ok (if tokens.length = 0 then 0 else
        ((((tokens.map (cand R lm)).toFinset.filter
            (agAdmit common (agDict R) sc)).card : ℝ)
          / Real.sqrt (tokens.length : ℝ))) := by
  unfold adv_guiraud
  rw [hok]
  show (if tokens.length = 0 then (Except.ok 0 : Except PyErr ℝ)
      else .ok (((agLoop R common (agDict R) sc lm tokens ∅).card : ℝ)
        / Real.sqrt (tokens.length : ℝ))) = _
  rcases eq_or_ne tokens.length 0 with h0 | h0
  · rw [if_pos h0, if_pos h0]
  · rw [if_neg h0, if_neg h0, agLoop_eq]
    rw [Finset.empty_union]

/-- Witness for C1: a concrete valid configuration and one-token input. -/
theorem adv_guiraud_spec_witness :
    commonTypes testRes "NGSL" CustomList.none true = .ok ∅ ∧
    adv_guiraud testRes ["zebra"] "NGSL" CustomList.none true true false =
      .ok (if (["zebra"] : List String).length = 0 then 0 else
        ((((["zebra"].map (cand testRes false)).toFinset.filter
            (agAdmit ∅ (agDict testRes) true)).card : ℝ)
          / Real.sqrt (((["zebra"] : List String).length : ℝ)))) := by
  have h : commonTypes testRes "NGSL" CustomList.none true = .ok ∅ := by
    simp [commonTypes, FILE_MAP_KEYS, testRes]
  exact ⟨h, adv_guiraud_spec testRes ["zebra"] "NGSL" CustomList.none true true false ∅ h⟩

/-- C9 is false as stated: `custom_list = [1]` is an iterable that is not
an iterable of strings, yet `adv_guiraud` accepts it — the code checks only
iterability — and returns 0 on the empty token list instead of raising a
type error. -/
theorem adv_guiraud_nonstring_custom_cex :
    adv_guiraud testRes [] "NGSL" (CustomList.iter [PyVal.int 1]) true true false
      = .ok 0 := rfl

/-- C9 (amended): a non-iterable `custom_list` is rejected with a type
error, and with no custom list an unrecognized `freq_list` name is
rejected with a key error; both rejections happen before the token list
(possibly empty) is examined.  An iterable `custom_list` is accepted even
when its elements are not strings. -/
theorem adv_guiraud_config_errors (R : Resources) (tokens : List String)
    (fl : String) (sc supp lm : Bool) :
    adv_guiraud R tokens fl CustomList.notIter sc supp lm = .error .typeError
    ∧ (fl ∉ FILE_MAP_KEYS →
        adv_guiraud R tokens fl CustomList.none sc supp lm = .error .keyError) := by
  constructor
  · rfl
  · intro h
    simp only [adv_guiraud, commonTypes]
    rw [if_neg h]

/-- Witness for the amended C9, both conjuncts at concrete inputs with an
empty token list. -/
theorem adv_guiraud_config_errors_witness :
    adv_guiraud testRes [] "NGSL" CustomList.notIter true true false
      = .error .typeError
    ∧ adv_guiraud testRes [] "BAD" CustomList.none true true false
      = .error .keyError :=
  ⟨(adv_guiraud_config_errors testRes [] "NGSL" true true false).1,
   (adv_guiraud_config_errors testRes [] "BAD" true true false).2
     (by simp [FILE_MAP_KEYS])⟩

/-- C6: `vocd` fails with a sizing error (`ValueError`) whenever the token
count after the optional spellcheck filtering step is strictly less than
the maximum of `length_range`. -/
theorem vocd_sizing_error (R : Resources) (osc : VocdOracles) (tokens : List String)
    (sc : Bool) (lo hi nsub ntr : Nat)
    (h : (if sc then spellcheck_filter R tokens else tokens).length < hi) :
    vocd R osc tokens sc lo hi nsub ntr = .error .valueError := by
  simp only [vocd]
  rw [if_pos h]

/-- Witness for C6: ten tokens with `length_range = (35, 50)`. -/
theorem vocd_sizing_error_witness :
    vocd testRes testOsc (List.replicate 10 "w") false 35 50 100 3
      = .error .valueError :=
  vocd_sizing_error testRes testOsc (List.replicate 10 "w") false 35 50 100 3
    (by simp)

/-- C8: on a token list whose post-filtering count N exceeds 1 (with V > 0
distinct types), `maas` returns ln(N) minus the quotient of ln(V) by
ln(N) squared — the operator precedence the code actually uses. -/
theorem maas_formula (R : Resources) (tokens : List String) (sc : Bool)
    (hN : 1 < (if sc then spellcheck_filter R tokens else tokens).length)
    (hV : 0 < (if sc then spellcheck_filter R tokens else tokens).dedup.length) :
    maas R tokens sc =
      .ok (Real.log (((if sc then spellcheck_filter R tokens else tokens).length : ℝ))
        - Real.log (((if sc then spellcheck_filter R tokens else tokens).dedup.length : ℝ))
          / (Real.log (((if sc then spellcheck_filter R tokens else tokens).length : ℝ)))^2) := by
  simp only [maas]
  rw [if_neg (by omega), if_neg (by omega)]

/-- Witness for C8 at four tokens with two types. -/
theorem maas_formula_witness :
    1 < (["a","a","b","b"] : List String).length ∧
    0 < (["a","a","b","b"] : List String).dedup.length ∧
    maas testRes ["a","a","b","b"] false =
      .ok (Real.log (((["a","a","b","b"] : List String).length : ℝ))
        - Real.log (((["a","a","b","b"] : List String).dedup.length : ℝ))
          / (Real.log (((["a","a","b","b"] : List String).length : ℝ)))^2) :=
  ⟨by simp, by simp [List.dedup_cons_of_mem, List.dedup_cons_of_not_mem],
   maas_formula testRes ["a","a","b","b"] false (by simp)
     (by simp [List.dedup_cons_of_mem, List.dedup_cons_of_not_mem])⟩
